import Mathlib

/-!
Verification of the text-extraction and layout engine of `app.py`
(delivery-note PDF auto-signer).

Python strings are embedded as `List Char`.  The regex searches of
`extract_info`, the line-splitting loop of `create_overlay`, and the
page-merging loop of `main` are translated into executable Lean
functions below; theorems about them settle the specification claims.
-/

/-- ASCII lowercase conversion of one character, as Python's `str.lower`
acts on ASCII input (the only case folding the program's patterns need). -/
def lowerC (c : Char) : Char :=
  if 'A' ≤ c ∧ c ≤ 'Z' then Char.ofNat (c.toNat + 32) else c

/-- ASCII uppercase conversion of one character, as Python's `str.upper`
acts on ASCII input. -/
def upperC (c : Char) : Char :=
  if 'a' ≤ c ∧ c ≤ 'z' then Char.ofNat (c.toNat - 32) else c

/-- Python whitespace (the class matched by `\s` and split on by
`str.split()` / stripped by `str.strip()`): space, tab, newline,
carriage return, vertical tab, form feed. -/
def pySpace (c : Char) : Bool :=
  c == ' ' || c == '\t' || c == '\n' || c == '\r' ||
  c == Char.ofNat 11 || c == Char.ofNat 12

/-- Does `pat` occur at the start of `s` (character-for-character)? -/
def startsList : List Char → List Char → Bool
  | [], _ => true
  | _ :: _, [] => false
  | p :: ps, c :: cs => p == c && startsList ps cs

/-- Does `pat` occur contiguously anywhere in `s`?  Embeds Python's
`pat in s` substring test. -/
def containsList (pat : List Char) : List Char → Bool
  | [] => startsList pat []
  | c :: cs => startsList pat (c :: cs) || containsList pat cs

/-- Case-insensitive version of `startsList`, used for the
`re.IGNORECASE` literal parts of the patterns in `extract_info`. -/
def ciStarts : List Char → List Char → Bool
  | [], _ => true
  | _ :: _, [] => false
  | p :: ps, c :: cs => lowerC p == lowerC c && ciStarts ps cs

/-- Python `str.strip()`: drop leading and trailing whitespace. -/
def pyStrip (s : List Char) : List Char :=
  ((s.dropWhile pySpace).reverse.dropWhile pySpace).reverse

/-- Python `s.replace('\n', ' ')`. -/
def replaceNL (s : List Char) : List Char :=
  s.map fun c => if c == '\n' then ' ' else c

/-- Python `str.split()` (no argument): whitespace-delimited words,
runs of whitespace collapsed, no empty words. -/
def words : List Char → List (List Char)
  | [] => []
  | c :: cs =>
    if pySpace c then words cs
    else
      match cs with
      | [] => [[c]]
      | d :: _ =>
        if pySpace d then [c] :: words cs
        else
          match words cs with
          | [] => [[c]]
          | w :: ws => (c :: w) :: ws

/-- Python `" ".join(ws)`. -/
def joinWords : List (List Char) → List Char
  | [] => []
  | [w] => w
  | w :: x :: ws => w ++ ' ' :: joinWords (x :: ws)

/-! ### Constant strings of the source -/

/-- The sentinel `"Unknown"`. -/
def unknownStr : List Char := ['U', 'n', 'k', 'n', 'o', 'w', 'n']

/-- The alternation branch `Subon:` of the subcon pattern (label plus
the colon that follows it in the regex). -/
def subonLbl : List Char := ['S', 'u', 'b', 'o', 'n', ':']

/-- The alternation branch `Subcon:` of the subcon pattern. -/
def subconLbl : List Char := ['S', 'u', 'b', 'c', 'o', 'n', ':']

/-- The literal `Site Receiver:` that terminates the subcon capture and
starts the receiver pattern. -/
def siteLbl : List Char :=
  ['S', 'i', 't', 'e', ' ', 'R', 'e', 'c', 'e', 'i', 'v', 'e', 'r', ':']

/-- The split marker `"SDN"`. -/
def sdnStr : List Char := ['S', 'D', 'N']

/-- The brand-name override `"UNIVERSAL CELLULAR"`. -/
def ucStr : List Char :=
  ['U', 'N', 'I', 'V', 'E', 'R', 'S', 'A', 'L', ' ',
   'C', 'E', 'L', 'L', 'U', 'L', 'A', 'R']

/-! ### `extract_info`: the subcon pattern

`re.search(r"(?:Subon|Subcon):\s*(.*?)\s*Site Receiver:", text,
re.IGNORECASE | re.DOTALL)` followed by `.group(1).strip()` and
`.replace('\n', ' ')`.

With `DOTALL`, the lazy group together with its surrounding greedy
`\s*` captures, for the leftmost label position that admits a match,
exactly the span between the end of the label and the first following
occurrence of `Site Receiver:`, with its leading and trailing
whitespace trimmed; `group(1).strip()` therefore equals the stripped
raw span, which is how the scanner below reports it. -/

/-- If one of the label alternatives `Subon:` / `Subcon:` matches
(case-insensitively) at the head of `u`, return the rest of `u` after
the label; the engine tries `Subon` first, as in the pattern. -/
def labelRest (u : List Char) : Option (List Char) :=
  if ciStarts subonLbl u then some (u.drop 6)
  else if ciStarts subconLbl u then some (u.drop 7)
  else none

/-- Index of the first (case-insensitive) occurrence of
`Site Receiver:` in `u`, if any. -/
def findL : List Char → Option Nat
  | [] => none
  | c :: cs =>
    if ciStarts siteLbl (c :: cs) then some 0
    else (findL cs).map (· + 1)

/-- The `re.search` loop for the subcon pattern: try every start
position left to right; at a position where a label alternative
matches, the whole pattern matches iff `Site Receiver:` occurs
somewhere after the label, and the lazy group plus `strip()` yields the
raw span up to its first occurrence (stripping is applied in
`extractSubcon`). -/
def goSubcon : List Char → Option (List Char)
  | [] => none
  | c :: cs =>
    match labelRest (c :: cs) with
    | some u =>
      match findL u with
      | some k => some (u.take k)
      | none => goSubcon cs
    | none => goSubcon cs

/-- The subcon value produced by `extract_info`: `"Unknown"` if the
pattern has no match, else the captured span stripped
(`group(1).strip()`) with newlines replaced by spaces. -/
def extractSubcon (t : List Char) : List Char :=
  match goSubcon t with
  | some sp => replaceNL (pyStrip sp)
  | none => unknownStr

/-! ### `extract_info`: the receiver pattern

`re.search(r"Site Receiver:\s*(.*?)(?:/|\d{8,})", text, re.IGNORECASE)`
followed by `.group(1).strip()`.  Without `DOTALL` the lazy group
cannot cross `'\n'`, but the greedy `\s*` can; the functions below
follow the engine's backtracking order (maximal `\s*` first, shrinking
one character at a time; for each choice the lazy group grows from
empty until the terminator `/` or an 8-digit run matches). -/

/-- Does the terminator `(?:/|\d{8,})` match at the head of `u`? -/
def termAt (u : List Char) : Bool :=
  u.head? == some '/' ||
  ((u.take 8).length == 8 && (u.take 8).all fun c => c.isDigit)

/-- Lazy scan of `(.*?)` (no DOTALL): the least group length `k` such
that the first `k` characters contain no `'\n'` and the terminator
matches right after them. -/
def scanGroup (u : List Char) : Option Nat :=
  if termAt u then some 0
  else
    match u with
    | [] => none
    | c :: cs => if c == '\n' then none else (scanGroup cs).map (· + 1)

/-- Backtracking over the greedy `\s*`: try a whitespace prefix of
length `ws1` (largest first), shrinking on failure. -/
def tryWs (u : List Char) : Nat → Option (List Char)
  | 0 =>
    match scanGroup u with
    | some k => some (u.take k)
    | none => none
  | w + 1 =>
    match scanGroup (u.drop (w + 1)) with
    | some k => some ((u.drop (w + 1)).take k)
    | none => tryWs u w

/-- Match the part of the receiver pattern after the label against `u`
(the text following `Site Receiver:`), returning the captured group. -/
def matchRecv (u : List Char) : Option (List Char) :=
  tryWs u (u.takeWhile pySpace).length

/-- The `re.search` loop for the receiver pattern. -/
def goReceiver : List Char → Option (List Char)
  | [] => none
  | c :: cs =>
    if ciStarts siteLbl (c :: cs) then
      match matchRecv ((c :: cs).drop 14) with
      | some g => some g
      | none => goReceiver cs
    else goReceiver cs

/-- The receiver value produced by `extract_info`: `"Unknown"` if the
pattern has no match, else `group(1).strip()`. -/
def extractReceiver (t : List Char) : List Char :=
  match goReceiver t with
  | some g => pyStrip g
  | none => unknownStr

/-- `extract_info`: the page-1 text extraction may raise (embedded as
`Except`); on success both fields are extracted (each falling back to
`"Unknown"`), on failure the error is reported and `(None, None)` is
returned. -/
def extract_info (pageText : Except Unit (List Char)) :
    Option (List Char) × Option (List Char) :=
  match pageText with
  | Except.error _ => (none, none)
  | Except.ok t => (some (extractSubcon t), some (extractReceiver t))

/-! ### `create_overlay`: line splitting, font size, signature -/

/-- `"SDN" in word.upper()`. -/
def hasSDN (w : List Char) : Bool :=
  containsList sdnStr (w.map upperC)

/-- The `for i, word in enumerate(words): if "SDN" in word.upper():
sdn_index = i; break` loop: index of the first SDN-containing word. -/
def sdnIdx : List (List Char) → Option Nat
  | [] => none
  | w :: ws => if hasSDN w then some 0 else (sdnIdx ws).map (· + 1)

/-- The `while len(" ".join(line1_words)) > 30 and len(line1_words) > 1`
rebalancing loop, on the REVERSED first line (so that popping the last
word of `line1` is taking the head): each iteration moves one word to
the front of `line2`. -/
def rebalanceRev :
    List (List Char) → List (List Char) → List (List Char) × List (List Char)
  | [], l2 => ([], l2)
  | [w], l2 => ([w], l2)
  | w :: x :: r1, l2 =>
    if 30 < (joinWords (w :: x :: r1).reverse).length then
      rebalanceRev (x :: r1) (w :: l2)
    else (w :: x :: r1, l2)

/-- The rebalancing loop on `(line1_words, line2_words)` in source
order. -/
def rebalance (l1 l2 : List (List Char)) :
    List (List Char) × List (List Char) :=
  ((rebalanceRev l1.reverse l2).1.reverse, (rebalanceRev l1.reverse l2).2)

/-- Number of iterations the rebalancing loop performs (on the reversed
first line, mirroring `rebalanceRev`). -/
def stepsRev : List (List Char) → Nat
  | [] => 0
  | [_] => 0
  | w :: x :: r1 =>
    if 30 < (joinWords (w :: x :: r1).reverse).length then
      stepsRev (x :: r1) + 1
    else 0

/-- Number of iterations of the rebalancing loop started on
`(l1, l2)`; the guard does not inspect `l2`. -/
def rebalanceIters (l1 : List (List Char)) : Nat :=
  stepsRev l1.reverse

/-- The line-splitting part of `create_overlay`: produces
`(line1, line2)`. -/
def layoutLines (subcon : List Char) : List Char × List Char :=
  match sdnIdx (words subcon) with
  | some i =>
    (joinWords (rebalance ((words subcon).take i) ((words subcon).drop i)).1,
     joinWords (rebalance ((words subcon).take i) ((words subcon).drop i)).2)
  | none =>
    if 2 < (words subcon).length then
      (joinWords ((words subcon).take ((words subcon).length / 2 + 1)),
       joinWords ((words subcon).drop ((words subcon).length / 2 + 1)))
    else (subcon, [])

/-- The font-size choice of `create_overlay`:
`font_size = 6`, lowered to `4.5` if `"UNIVERSAL CELLULAR" in
subcon.upper()` or `len(line1) > 30`. -/
def fontSize (subcon : List Char) : ℚ :=
  if containsList ucStr (subcon.map upperC) = true ∨
      30 < (layoutLines subcon).1.length then 4.5 else 6

/-- Python `str.capitalize()` (ASCII): first character uppercased, the
rest lowercased. -/
def pyCapitalize : List Char → List Char
  | [] => []
  | c :: cs => upperC c :: cs.map lowerC

/-- `first_name = receiver.split()[0] if receiver else ""` followed by
`.capitalize()`.  A non-empty receiver is truthy, so for a non-empty
all-whitespace receiver the indexing `[0]` of an empty word list raises
`IndexError`, embedded as `none`. -/
def firstNameOf (receiver : List Char) : Option (List Char) :=
  if receiver = [] then some (pyCapitalize [])
  else
    match words receiver with
    | [] => none
    | w :: _ => some (pyCapitalize w)

/-- The data drawn by `create_overlay` onto the overlay page. -/
structure Overlay where
  line1 : List Char
  line2 : List Char
  size : ℚ
  signature : List Char
  dateStr : List Char
deriving DecidableEq

/-- `create_overlay`: layout the subcon, choose the font size, derive
the signature name (which can raise, hence `Option`), and record the
date string. -/
def create_overlay (subcon receiver date : List Char) : Option Overlay :=
  match firstNameOf receiver with
  | none => none
  | some fn =>
    some { line1 := (layoutLines subcon).1
           line2 := (layoutLines subcon).2
           size := fontSize subcon
           signature := fn
           dateStr := date }

/-! ### `main`: merging the overlay onto the document -/

/-- A PDF page, abstracted as the list of content items drawn on it. -/
abbrev Page := List (List Char)

/-- Modelled from the spec: pypdf's `PageObject.merge_page` (called in
`main` on the first page only) is external library code; per the spec
it forms the graphical union with the overlay drawn on top of the
base page's content. -/
def merge_page (base ov : Page) : Page := base ++ ov

/-- The items `create_overlay` draws: `line1`, then `line2` only if it
is non-empty (`if line2:`), then the signature, then the date. -/
def overlayItems (ov : Overlay) : Page :=
  [ov.line1] ++ (if ov.line2 ≠ [] then [ov.line2] else []) ++
  [ov.signature, ov.dateStr]

/-- The merge loop of `main`: take page 0, merge the overlay page onto
it, then append pages `1 ..` unchanged, in order.  An empty source
document makes `existing_pdf.pages[0]` raise, embedded as `none`. -/
def mergeDocs (src : List Page) (ovPage : Page) : Option (List Page) :=
  match src with
  | [] => none
  | p :: rest => some (merge_page p ovPage :: rest)

/-- Python truthiness of an optional string (`None` and `""` are
falsy). -/
def truthy : Option (List Char) → Bool
  | none => false
  | some s => !s.isEmpty

/-- The processing pipeline of `main` for one uploaded document:
extract the fields, and only `if subcon and receiver:` build the
overlay and merge it; any failure yields no output document. -/
def mainProcess (pageText : Except Unit (List Char)) (srcPages : List Page)
    (date : List Char) : Option (List Page) :=
  let fields := extract_info pageText
  if truthy fields.1 && truthy fields.2 then
    match fields.1, fields.2 with
    | some sc, some rc =>
      match create_overlay sc rc date with
      | none => none
      | some ov => mergeDocs srcPages (overlayItems ov)
    | _, _ => none
  else none

/-! ### Declarative description of the subcon pattern (for claim C5)

These predicates state, independently of the scanner above, where the
pattern's pieces match inside the page text: a label alternative at
offset `s` ending at offset `e`, and the terminating
`Site Receiver:` literal at offset `p`. -/

/-- `Site Receiver:` matches (case-insensitively) at offset `p`. -/
abbrev SiteAt (t : List Char) (p : Nat) : Prop :=
  ciStarts siteLbl (t.drop p) = true

/-- A label alternative (`Subon:` or `Subcon:`, case-insensitively)
matches at offset `s`, with `e` the offset just past its colon. -/
abbrev LabelAt (t : List Char) (s e : Nat) : Prop :=
  (ciStarts subonLbl (t.drop s) = true ∧ e = s + 6) ∨
  (ciStarts subconLbl (t.drop s) = true ∧ e = s + 7)

/-- The whole subcon pattern matches starting at offset `s`: a label
there, and the terminating literal somewhere at or after its end
(`.*?` with DOTALL crosses anything in between). -/
def SubconMatchAt (t : List Char) (s : Nat) : Prop :=
  ∃ e p, LabelAt t s e ∧ e ≤ p ∧ SiteAt t p

/-- The correctness contract of the subcon scanner `goSubcon`: it fails
exactly when no start position matches, and a successful capture comes
from the leftmost matching label and the nearest following terminator. -/
abbrev GoSpec (t : List Char) : Prop :=
  (goSubcon t = none → ∀ s, ¬ SubconMatchAt t s)
  ∧ (∀ r, goSubcon t = some r →
      ∃ s e p, LabelAt t s e ∧ e ≤ p ∧ SiteAt t p
        ∧ (∀ s', s' < s → ¬ SubconMatchAt t s')
        ∧ (∀ p', e ≤ p' → SiteAt t p' → p ≤ p')
        ∧ r = (t.drop e).take (p - e))

/-! ### Lemmas about `words` and `joinWords` -/

theorem words_cons_space {c : Char} (cs : List Char) (hc : pySpace c = true) :
    words (c :: cs) = words cs := by
  rw [words.eq_def]; simp [hc]

theorem words_single_char {c : Char} (hc : pySpace c = false) :
    words [c] = [[c]] := by
  rw [words.eq_def]; simp [hc]

theorem words_cons_cons_space {c d : Char} (cs : List Char) (hc : pySpace c = false)
    (hd : pySpace d = true) : words (c :: d :: cs) = [c] :: words (d :: cs) := by
  rw [words.eq_def]; simp [hc, hd]

theorem words_cons_cons_nonspace {c d : Char} (cs : List Char) (hc : pySpace c = false)
    (hd : pySpace d = false) :
    words (c :: d :: cs) =
      match words (d :: cs) with
      | [] => [[c]]
      | w :: ws => (c :: w) :: ws := by
  rw [words.eq_def]; simp [hc, hd]

/-- Every word produced by `words` is non-empty and whitespace-free. -/
theorem words_good : ∀ (s : List Char), ∀ w ∈ words s, w ≠ [] ∧ ∀ c ∈ w, pySpace c = false
  | [], w, hw => by simp [words] at hw
  | c :: cs, w, hw => by
    by_cases hc : pySpace c
    · rw [words_cons_space cs hc] at hw
      exact words_good cs w hw
    · match cs, hw with
      | [], hw => ?_
      | d :: cs', hw => ?_
      · rw [words_single_char (by simpa using hc)] at hw
        simp at hw
        subst hw; simp [hc]
      · by_cases hd : pySpace d
        · rw [words_cons_cons_space cs' (by simpa using hc) hd] at hw
          rcases List.mem_cons.mp hw with h | h
          · subst h; simp [hc]
          · exact words_good (d :: cs') w h
        · rw [words_cons_cons_nonspace cs' (by simpa using hc) (by simpa using hd)] at hw
          rcases hws : words (d :: cs') with _ | ⟨w0, ws0⟩
          · rw [hws] at hw
            simp at hw
            subst hw; simp [hc]
          · rw [hws] at hw
            rcases List.mem_cons.mp hw with h | h
            · subst h
              have h0 := words_good (d :: cs') w0 (by rw [hws]; exact List.mem_cons_self _ _)
              refine ⟨by simp, ?_⟩
              intro x hx
              rcases List.mem_cons.mp hx with h1 | h1
              · subst h1; simpa using hc
              · exact h0.2 x h1
            · exact words_good (d :: cs') w (by rw [hws]; exact List.mem_cons_of_mem _ h)

theorem joinWords_cons_cons (w x : List Char) (ws : List (List Char)) :
    joinWords (w :: x :: ws) = w ++ ' ' :: joinWords (x :: ws) := rfl

theorem joinWords_singleton (w : List Char) : joinWords [w] = w := rfl

/-- Splitting a whitespace-free word followed by a whitespace character
peels off exactly that word. -/
theorem words_word_append :
    ∀ (w : List Char) (d : Char) (r : List Char), w ≠ [] →
      (∀ c ∈ w, pySpace c = false) → pySpace d = true →
      words (w ++ d :: r) = w :: words r
  | [], _, _, h, _, _ => absurd rfl h
  | [c], d, r, _, hns, hd => by
    have hc : pySpace c = false := hns c (by simp)
    rw [List.cons_append, List.nil_append,
      words_cons_cons_space r hc hd, words_cons_space r hd]
  | c :: c' :: w'', d, r, _, hns, hd => by
    have hc : pySpace c = false := hns c (by simp)
    have hc' : pySpace c' = false := hns c' (by simp)
    have ih := words_word_append (c' :: w'') d r (by simp)
      (fun x hx => hns x (List.mem_cons_of_mem _ hx)) hd
    have ih' : words (c' :: (w'' ++ d :: r)) = (c' :: w'') :: words r := by
      simpa using ih
    simp only [List.cons_append]
    rw [words_cons_cons_nonspace (w'' ++ d :: r) hc hc', ih']

/-- `words` of a single whitespace-free word. -/
theorem words_single :
    ∀ (w : List Char), w ≠ [] → (∀ c ∈ w, pySpace c = false) → words w = [w]
  | [], h, _ => absurd rfl h
  | [c], _, hns => words_single_char (hns c (by simp))
  | c :: c' :: w'', _, hns => by
    have hc : pySpace c = false := hns c (by simp)
    have hc' : pySpace c' = false := hns c' (by simp)
    have ih := words_single (c' :: w'') (by simp)
      (fun x hx => hns x (List.mem_cons_of_mem _ hx))
    rw [words_cons_cons_nonspace _ hc hc', ih]

/-- `words` is a left inverse of `joinWords` on lists of non-empty
whitespace-free words. -/
theorem words_join :
    ∀ (ws : List (List Char)),
      (∀ w ∈ ws, w ≠ [] ∧ ∀ c ∈ w, pySpace c = false) →
      words (joinWords ws) = ws
  | [], _ => rfl
  | [w], h => by
    rw [joinWords]
    exact words_single w (h w (by simp)).1 (h w (by simp)).2
  | w :: x :: ws, h => by
    rw [joinWords]
    rw [words_word_append w ' ' _ (h w (by simp)).1 (h w (by simp)).2 (by decide)]
    rw [words_join (x :: ws) (fun u hu => h u (List.mem_cons_of_mem _ hu))]

/-- `joinWords` distributes over append of two non-empty lists, with a
single separating space. -/
theorem joinWords_append :
    ∀ (a b : List (List Char)), a ≠ [] → b ≠ [] →
      joinWords (a ++ b) = joinWords a ++ ' ' :: joinWords b
  | [], _, h, _ => absurd rfl h
  | [w], x :: b', _, _ => by
    rw [List.singleton_append, joinWords_cons_cons, joinWords_singleton]
  | w :: w' :: a', b, _, hb => by
    have ih := joinWords_append (w' :: a') b (by simp) hb
    have ih' : joinWords (w' :: (a' ++ b)) = joinWords (w' :: a') ++ ' ' :: joinWords b := by
      simpa using ih
    show joinWords (w :: w' :: (a' ++ b)) = joinWords (w :: w' :: a') ++ ' ' :: joinWords b
    rw [joinWords_cons_cons w w' (a' ++ b), joinWords_cons_cons w w' a', ih']
    simp

/-- `joinWords` of a non-empty list of non-empty words is non-empty. -/
theorem joinWords_ne_nil :
    ∀ (ws : List (List Char)), ws ≠ [] → (∀ w ∈ ws, w ≠ []) →
      joinWords ws ≠ []
  | [], h, _ => absurd rfl h
  | [w], _, hne => by rw [joinWords]; exact hne w (by simp)
  | w :: x :: ws, _, _ => by
    rw [joinWords]
    simp

/-! ### Lemmas about the rebalancing loop -/

theorem rebalanceRev_cons_cons (w x : List Char) (r1 l2 : List (List Char)) :
    rebalanceRev (w :: x :: r1) l2 =
      if 30 < (joinWords (w :: x :: r1).reverse).length then
        rebalanceRev (x :: r1) (w :: l2)
      else (w :: x :: r1, l2) := rfl

theorem stepsRev_cons_cons (w x : List Char) (r1 : List (List Char)) :
    stepsRev (w :: x :: r1) =
      if 30 < (joinWords (w :: x :: r1).reverse).length then
        stepsRev (x :: r1) + 1
      else 0 := rfl

/-- The loop only moves words between the lines: the concatenation is
preserved. -/
theorem rebalanceRev_append :
    ∀ (r1 l2 : List (List Char)),
      (rebalanceRev r1 l2).1.reverse ++ (rebalanceRev r1 l2).2 = r1.reverse ++ l2
  | [], l2 => rfl
  | [w], l2 => rfl
  | w :: x :: r1, l2 => by
    rw [rebalanceRev_cons_cons]
    by_cases h : 30 < (joinWords (w :: x :: r1).reverse).length
    · rw [if_pos h]
      rw [rebalanceRev_append (x :: r1) (w :: l2)]
      simp
    · rw [if_neg h]

/-- The loop guard keeps at least one word on line 1. -/
theorem rebalanceRev_fst_ne_nil :
    ∀ (r1 l2 : List (List Char)), r1 ≠ [] → (rebalanceRev r1 l2).1 ≠ []
  | [], _, h => absurd rfl h
  | [w], l2, _ => by simp [rebalanceRev]
  | w :: x :: r1, l2, _ => by
    rw [rebalanceRev_cons_cons]
    by_cases h : 30 < (joinWords (w :: x :: r1).reverse).length
    · rw [if_pos h]
      exact rebalanceRev_fst_ne_nil (x :: r1) (w :: l2) (by simp)
    · rw [if_neg h]; simp

/-- The loop only prepends to line 2, so a non-empty line 2 stays
non-empty. -/
theorem rebalanceRev_snd_ne_nil :
    ∀ (r1 l2 : List (List Char)), l2 ≠ [] → (rebalanceRev r1 l2).2 ≠ []
  | [], l2, h => h
  | [w], l2, h => h
  | w :: x :: r1, l2, h => by
    rw [rebalanceRev_cons_cons]
    by_cases hg : 30 < (joinWords (w :: x :: r1).reverse).length
    · rw [if_pos hg]
      exact rebalanceRev_snd_ne_nil (x :: r1) (w :: l2) (by simp)
    · rw [if_neg hg]; exact h

/-- The loop guard `len(line1_words) > 1` bounds the iteration count by
the initial word count minus one. -/
theorem stepsRev_le : ∀ (r1 : List (List Char)), stepsRev r1 ≤ r1.length - 1
  | [] => Nat.le_refl _
  | [_] => Nat.le_refl _
  | w :: x :: r1 => by
    rw [stepsRev_cons_cons]
    by_cases h : 30 < (joinWords (w :: x :: r1).reverse).length
    · rw [if_pos h]
      have := stepsRev_le (x :: r1)
      simp only [List.length_cons] at this ⊢
      omega
    · rw [if_neg h]; omega

/-- Each iteration removes exactly one word from line 1. -/
theorem rebalanceRev_fst_length :
    ∀ (r1 l2 : List (List Char)),
      (rebalanceRev r1 l2).1.length = r1.length - stepsRev r1
  | [], l2 => rfl
  | [w], l2 => rfl
  | w :: x :: r1, l2 => by
    rw [rebalanceRev_cons_cons, stepsRev_cons_cons]
    by_cases h : 30 < (joinWords (w :: x :: r1).reverse).length
    · rw [if_pos h, if_pos h]
      rw [rebalanceRev_fst_length (x :: r1) (w :: l2)]
      have := stepsRev_le (x :: r1)
      simp only [List.length_cons] at this ⊢
      omega
    · rw [if_neg h, if_neg h]; simp

theorem rebalance_append (l1 l2 : List (List Char)) :
    (rebalance l1 l2).1 ++ (rebalance l1 l2).2 = l1 ++ l2 := by
  unfold rebalance
  have := rebalanceRev_append l1.reverse l2
  simpa using this

theorem rebalance_fst_ne_nil (l1 l2 : List (List Char)) (h : l1 ≠ []) :
    (rebalance l1 l2).1 ≠ [] := by
  unfold rebalance
  simpa using rebalanceRev_fst_ne_nil l1.reverse l2 (by simpa using h)

theorem rebalance_snd_ne_nil (l1 l2 : List (List Char)) (h : l2 ≠ []) :
    (rebalance l1 l2).2 ≠ [] :=
  rebalanceRev_snd_ne_nil l1.reverse l2 h

theorem rebalance_fst_length (l1 l2 : List (List Char)) :
    (rebalance l1 l2).1.length = l1.length - rebalanceIters l1 := by
  unfold rebalance rebalanceIters
  have := rebalanceRev_fst_length l1.reverse l2
  simpa using this

/-! ### Lemmas about `sdnIdx` -/

theorem sdnIdx_lt : ∀ (ws : List (List Char)) (i : Nat),
    sdnIdx ws = some i → i < ws.length
  | [], i, h => by simp [sdnIdx] at h
  | w :: ws, i, h => by
    rw [sdnIdx] at h
    by_cases hw : hasSDN w
    · rw [if_pos hw] at h
      simp at h
      simp only [List.length_cons]
      omega
    · rw [if_neg hw] at h
      match hrec : sdnIdx ws with
      | none => rw [hrec] at h; simp at h
      | some j =>
        rw [hrec] at h
        simp at h
        have := sdnIdx_lt ws j hrec
        simp only [List.length_cons]
        omega

theorem sdnIdx_of_mem : ∀ (ws : List (List Char)),
    (∃ w ∈ ws, hasSDN w = true) → ∃ i, sdnIdx ws = some i
  | [], h => by simp at h
  | w :: ws, h => by
    rw [sdnIdx]
    by_cases hw : hasSDN w
    · exact ⟨0, by rw [if_pos hw]⟩
    · rw [if_neg hw]
      obtain ⟨u, hu, hsdn⟩ := h
      rcases List.mem_cons.mp hu with h1 | h1
      · subst h1; exact absurd hsdn hw
      · obtain ⟨i, hi⟩ := sdnIdx_of_mem ws ⟨u, h1, hsdn⟩
        exact ⟨i + 1, by rw [hi]; rfl⟩

/-! ### Layout claims -/

theorem layoutLines_sdn (s : List Char) (i : Nat) (h : sdnIdx (words s) = some i) :
    layoutLines s =
      (joinWords (rebalance ((words s).take i) ((words s).drop i)).1,
       joinWords (rebalance ((words s).take i) ((words s).drop i)).2) := by
  unfold layoutLines
  rw [h]

theorem layoutLines_noSdn (s : List Char) (h : sdnIdx (words s) = none) :
    layoutLines s =
      if 2 < (words s).length then
        (joinWords ((words s).take ((words s).length / 2 + 1)),
         joinWords ((words s).drop ((words s).length / 2 + 1)))
      else (s, []) := by
  unfold layoutLines
  rw [h]

/-- C2: for every subcon whose word list contains an SDN-marked word,
splitting `line1 ++ " " ++ line2` back into words yields exactly the
original word sequence — the rebalancing loop loses, duplicates and
reorders nothing. -/
theorem sdn_rebalance_preserves_words (s : List Char)
    (h : ∃ w ∈ words s, hasSDN w = true) :
    words ((layoutLines s).1 ++ ' ' :: (layoutLines s).2) = words s := by
  obtain ⟨i, hi⟩ := sdnIdx_of_mem _ h
  have hlt := sdnIdx_lt _ _ hi
  obtain ⟨a, b, hre⟩ : ∃ a b,
      rebalance ((words s).take i) ((words s).drop i) = (a, b) := ⟨_, _, rfl⟩
  have hlay : layoutLines s = (joinWords a, joinWords b) := by
    rw [layoutLines_sdn s i hi, hre]
  have hab : a ++ b = words s := by
    have h2 := rebalance_append ((words s).take i) ((words s).drop i)
    rw [hre] at h2
    simpa [List.take_append_drop] using h2
  have hgoodab : ∀ w ∈ a ++ b, w ≠ [] ∧ ∀ c ∈ w, pySpace c = false := by
    intro w hw
    exact words_good s w (hab ▸ hw)
  have hdrop : (words s).drop i ≠ [] := by
    intro hdrop
    have hlen := List.length_drop i (words s)
    rw [hdrop] at hlen
    simp at hlen
    omega
  have hb : b ≠ [] := by
    have h2 := rebalance_snd_ne_nil ((words s).take i) ((words s).drop i) hdrop
    rw [hre] at h2
    exact h2
  rw [hlay]
  by_cases ha : a = []
  · subst ha
    show words ([] ++ ' ' :: joinWords b) = words s
    rw [List.nil_append, words_cons_space _ (by decide),
      words_join b (fun w hw => hgoodab w (List.mem_append_right _ hw))]
    simpa using hab
  · show words (joinWords a ++ ' ' :: joinWords b) = words s
    rw [← joinWords_append a b ha hb, words_join _ hgoodab, hab]

/-- C2 witness: a concrete subcon with an SDN word. -/
theorem sdn_rebalance_preserves_words_witness :
    words ((layoutLines ("ABC SDN BHD".toList)).1 ++
      ' ' :: (layoutLines ("ABC SDN BHD".toList)).2) =
      words ("ABC SDN BHD".toList) :=
  sdn_rebalance_preserves_words _ ⟨['S', 'D', 'N'], by decide, by decide⟩

/-- C1 counterexample: `"SDN BHD"` is a non-empty subcon whose layout
has an empty `line1`, because the SDN-marked word sits at index 0 and
everything is placed on `line2`. -/
theorem layout_line1_empty_cex :
    (layoutLines ("SDN BHD".toList)).1 = [] ∧ "SDN BHD".toList ≠ [] := by
  exact ⟨by decide, by decide⟩

/-- C1 (amended): `line1` is empty iff the subcon is empty or its first
SDN-marked word is at index 0; `line2` is empty iff there is no
SDN-marked word and the subcon has at most 2 words. -/
theorem layout_emptiness (s : List Char) :
    ((layoutLines s).1 = [] ↔ (s = [] ∨ sdnIdx (words s) = some 0))
    ∧ ((layoutLines s).2 = [] ↔
        (sdnIdx (words s) = none ∧ (words s).length ≤ 2)) := by
  match hidx : sdnIdx (words s) with
  | some i =>
    have hlt := sdnIdx_lt _ _ hidx
    obtain ⟨a, b, hre⟩ : ∃ a b,
        rebalance ((words s).take i) ((words s).drop i) = (a, b) := ⟨_, _, rfl⟩
    have hlay : layoutLines s = (joinWords a, joinWords b) := by
      rw [layoutLines_sdn s i hidx, hre]
    have hab : a ++ b = words s := by
      have h2 := rebalance_append ((words s).take i) ((words s).drop i)
      rw [hre] at h2
      simpa [List.take_append_drop] using h2
    have hgoodab : ∀ w ∈ a ++ b, w ≠ [] ∧ ∀ c ∈ w, pySpace c = false := by
      intro w hw
      exact words_good s w (hab ▸ hw)
    have hsne : s ≠ [] := by
      intro h0
      rw [h0] at hidx
      simp [words, sdnIdx] at hidx
    have hdrop : (words s).drop i ≠ [] := by
      intro hdrop
      have hlen := List.length_drop i (words s)
      rw [hdrop] at hlen
      simp at hlen
      omega
    have hb : b ≠ [] := by
      have h2 := rebalance_snd_ne_nil ((words s).take i) ((words s).drop i) hdrop
      rw [hre] at h2
      exact h2
    have hline2 : (layoutLines s).2 ≠ [] := by
      rw [hlay]
      exact joinWords_ne_nil b hb
        (fun w hw => (hgoodab w (List.mem_append_right _ hw)).1)
    refine ⟨?_, ?_⟩
    · match i, hidx, hlt, hre with
      | 0, hidx, hlt, hre =>
        have ha : a = [] := by
          simp only [List.take_zero, List.drop_zero] at hre
          have h3 : rebalance [] (words s) = (([] : List (List Char)), words s) := rfl
          rw [h3] at hre
          exact (Prod.mk.injEq _ _ _ _ ▸ hre).1.symm
        constructor
        · intro _
          exact Or.inr rfl
        · intro _
          rw [hlay, ha]
          rfl
      | j + 1, hidx, hlt, hre =>
        have hta : (words s).take (j + 1) ≠ [] := by
          intro htake
          have hlen := List.length_take (j + 1) (words s)
          rw [htake] at hlen
          simp at hlen
          omega
        have ha : a ≠ [] := by
          have h2 := rebalance_fst_ne_nil ((words s).take (j + 1))
            ((words s).drop (j + 1)) hta
          rw [hre] at h2
          exact h2
        have hline1 : (layoutLines s).1 ≠ [] := by
          rw [hlay]
          exact joinWords_ne_nil a ha
            (fun w hw => (hgoodab w (List.mem_append_left _ hw)).1)
        constructor
        · intro h1
          exact absurd h1 hline1
        · rintro (h1 | h1)
          · exact absurd h1 hsne
          · simp at h1
    · constructor
      · intro h1
        exact absurd h1 hline2
      · rintro ⟨h1, _⟩
        simp at h1
  | none =>
    by_cases hl : 2 < (words s).length
    · rw [layoutLines_noSdn s hidx, if_pos hl]
      have hwsne : words s ≠ [] := by
        intro h0
        rw [h0] at hl
        simp at hl
      have hsne : s ≠ [] := by
        intro h0
        rw [h0] at hwsne
        exact hwsne rfl
      have hta : (words s).take ((words s).length / 2 + 1) ≠ [] := by
        intro htake
        have hlen := List.length_take ((words s).length / 2 + 1) (words s)
        rw [htake] at hlen
        simp at hlen
        omega
      have hda : (words s).drop ((words s).length / 2 + 1) ≠ [] := by
        intro hdrop
        have hlen := List.length_drop ((words s).length / 2 + 1) (words s)
        rw [hdrop] at hlen
        simp at hlen
        omega
      constructor
      · show joinWords ((words s).take ((words s).length / 2 + 1)) = [] ↔ _
        constructor
        · intro h1
          exact absurd h1 (joinWords_ne_nil _ hta
            (fun w hw => (words_good s w (List.mem_of_mem_take hw)).1))
        · rintro (h1 | h1)
          · exact absurd h1 hsne
          · simp at h1
      · show joinWords ((words s).drop ((words s).length / 2 + 1)) = [] ↔ _
        constructor
        · intro h1
          exact absurd h1 (joinWords_ne_nil _ hda
            (fun w hw => (words_good s w (List.mem_of_mem_drop hw)).1))
        · rintro ⟨_, h2⟩
          omega
    · rw [layoutLines_noSdn s hidx, if_neg hl]
      constructor
      · show s = [] ↔ _
        constructor
        · exact fun h1 => Or.inl h1
        · rintro (h1 | h1)
          · exact h1
          · simp at h1
      · show ([] : List Char) = [] ↔ _
        constructor
        · intro _
          exact ⟨rfl, by omega⟩
        · intro _
          rfl

/-- C9: the rebalancing loop runs at most (number of words before the
SDN word) − 1 times, and each iteration removes exactly one word from
line 1; together with the guard this makes the layout step total. -/
theorem rebalance_loop_bound (s : List Char) (i : Nat) (l2 : List (List Char))
    (h : sdnIdx (words s) = some i) :
    rebalanceIters ((words s).take i) ≤ i - 1
    ∧ (rebalance ((words s).take i) l2).1.length =
        ((words s).take i).length - rebalanceIters ((words s).take i) := by
  constructor
  · have h1 := stepsRev_le ((words s).take i).reverse
    have h2 : ((words s).take i).length ≤ i := by
      rw [List.length_take]
      omega
    unfold rebalanceIters
    rw [List.length_reverse] at h1
    omega
  · exact rebalance_fst_length _ _

/-- C9 witness. -/
theorem rebalance_loop_bound_witness :
    rebalanceIters ((words ("A SDN".toList)).take 1) ≤ 1 - 1
    ∧ (rebalance ((words ("A SDN".toList)).take 1) []).1.length =
        ((words ("A SDN".toList)).take 1).length -
          rebalanceIters ((words ("A SDN".toList)).take 1) :=
  rebalance_loop_bound ("A SDN".toList) 1 [] (by decide)

/-- C4: the chosen font size is 4.5 iff the uppercased subcon contains
`"UNIVERSAL CELLULAR"` or `line1` is longer than 30 characters, and 6
otherwise. -/
theorem font_size_rule (s : List Char) :
    (fontSize s = 4.5 ↔
      (containsList ucStr (s.map upperC) = true ∨
        30 < (layoutLines s).1.length))
    ∧ (fontSize s = 6 ↔
      ¬(containsList ucStr (s.map upperC) = true ∨
        30 < (layoutLines s).1.length)) := by
  unfold fontSize
  by_cases h : containsList ucStr (s.map upperC) = true ∨
      30 < (layoutLines s).1.length
  · rw [if_pos h]
    exact ⟨⟨fun _ => h, fun _ => rfl⟩,
      ⟨fun h45 => absurd h45 (by norm_num), fun hn => absurd h hn⟩⟩
  · rw [if_neg h]
    exact ⟨⟨fun h45 => absurd h45.symm (by norm_num), fun hc => absurd hc h⟩,
      ⟨fun _ => h, fun _ => rfl⟩⟩

/-! ### Signature-name claims (C3) -/

/-- C3 counterexample: a receiver consisting of a single space is a
non-empty (truthy) string with no tokens, so `receiver.split()[0]`
raises `IndexError` (embedded as `none`) instead of rendering an empty
signature. -/
theorem signature_whitespace_cex :
    firstNameOf [' '] = none ∧ firstNameOf [' '] ≠ some [] := by
  exact ⟨by decide, by decide⟩

/-- C3 (amended): for a receiver with at least one token the signature
is the first token with its first letter uppercased and the rest
lowercased; the empty receiver renders an empty signature; a non-empty
receiver with no tokens (whitespace only) raises instead of rendering. -/
theorem signature_name_rule (r : List Char) :
    (r = [] → firstNameOf r = some [])
    ∧ (∀ c cs ws, words r = (c :: cs) :: ws →
        firstNameOf r = some (upperC c :: cs.map lowerC))
    ∧ (r ≠ [] → words r = [] → firstNameOf r = none) := by
  refine ⟨?_, ?_, ?_⟩
  · intro h; subst h; rfl
  · intro c cs ws h
    have hr : r ≠ [] := by
      intro h0
      subst h0
      simp [words] at h
    unfold firstNameOf
    rw [if_neg hr, h]
    rfl
  · intro h1 h2
    unfold firstNameOf
    rw [if_neg h1, h2]

/-- C3 (amended) witness: `"JOHN SMITH"` yields signature `"John"`. -/
theorem signature_name_rule_witness :
    firstNameOf ("JOHN SMITH".toList) = some ("John".toList) := by
  have h := (signature_name_rule ("JOHN SMITH".toList)).2.1 'J' ("OHN".toList)
    ["SMITH".toList] (by decide)
  rw [h]
  decide

/-! ### Error-handling claims (C6, C7) -/

/-- C6: when a field pattern finds no match the field becomes the
non-empty sentinel `"Unknown"`, the truthiness gate passes, an overlay
is still produced, and `"Unknown"` is its rendered value (`line1` for
the subcon; the capitalized first token `"Unknown"` for the
signature). -/
theorem unknown_sentinel_flow (t d : List Char)
    (h1 : goSubcon t = none) (h2 : goReceiver t = none) :
    extract_info (Except.ok t) = (some unknownStr, some unknownStr)
    ∧ (truthy (some unknownStr) && truthy (some unknownStr)) = true
    ∧ ∃ ov, create_overlay unknownStr unknownStr d = some ov
        ∧ ov.line1 = unknownStr ∧ ov.line2 = [] ∧ ov.signature = unknownStr := by
  have hs : extractSubcon t = unknownStr := by
    unfold extractSubcon
    rw [h1]
  have hr : extractReceiver t = unknownStr := by
    unfold extractReceiver
    rw [h2]
  refine ⟨by simp [extract_info, hs, hr], by decide, ?_⟩
  refine ⟨_, rfl, ?_, ?_, ?_⟩
  · show (layoutLines unknownStr).1 = unknownStr
    decide
  · show (layoutLines unknownStr).2 = []
    decide
  · show pyCapitalize ['U', 'n', 'k', 'n', 'o', 'w', 'n'] = unknownStr
    decide

/-- C6 witness: the empty page text matches neither pattern. -/
theorem unknown_sentinel_flow_witness :
    extract_info (Except.ok []) = (some unknownStr, some unknownStr)
    ∧ (truthy (some unknownStr) && truthy (some unknownStr)) = true
    ∧ ∃ ov, create_overlay unknownStr unknownStr [] = some ov
        ∧ ov.line1 = unknownStr ∧ ov.line2 = [] ∧ ov.signature = unknownStr :=
  unknown_sentinel_flow [] [] (by decide) (by decide)

/-- C7: if page-text extraction raises, `extract_info` reports failure
as `(None, None)`, the truthiness gate fails, and the pipeline produces
no output document. -/
theorem extraction_failure_halts (e : Unit) (src : List Page) (d : List Char) :
    extract_info (Except.error e) = (none, none)
    ∧ truthy (extract_info (Except.error e)).1 = false
    ∧ mainProcess (Except.error e) src d = none := by
  refine ⟨rfl, rfl, ?_⟩
  unfold mainProcess
  simp [extract_info, truthy]

/-! ### Merge claim (C8) -/

/-- C8: merging the overlay onto a non-empty source document keeps the
page count and order; only page 0 receives the overlay (drawn on top of
its own content) and every later page passes through unchanged. -/
theorem merge_preserves_structure (p : Page) (rest : List Page) (ovp : Page) :
    mergeDocs (p :: rest) ovp = some (merge_page p ovp :: rest)
    ∧ (merge_page p ovp :: rest).length = (p :: rest).length
    ∧ merge_page p ovp = p ++ ovp
    ∧ ∀ i : Nat, (merge_page p ovp :: rest)[i + 1]? = (p :: rest)[i + 1]? := by
  refine ⟨rfl, by simp, rfl, fun i => by simp⟩

/-! ### Subcon extraction claim (C5) -/

theorem goSubcon_cons (c : Char) (cs : List Char) :
    goSubcon (c :: cs) =
      match labelRest (c :: cs) with
      | some u =>
        match findL u with
        | some k => some (u.take k)
        | none => goSubcon cs
      | none => goSubcon cs := rfl

theorem findL_cons (c : Char) (cs : List Char) :
    findL (c :: cs) =
      if ciStarts siteLbl (c :: cs) then some 0
      else (findL cs).map (· + 1) := rfl

theorem labelRest_some (v u : List Char) (h : labelRest v = some u) :
    (ciStarts subonLbl v = true ∧ u = v.drop 6) ∨
    (ciStarts subonLbl v = false ∧ ciStarts subconLbl v = true ∧ u = v.drop 7) := by
  unfold labelRest at h
  by_cases h1 : ciStarts subonLbl v
  · rw [if_pos h1] at h
    exact Or.inl ⟨h1, (Option.some.inj h).symm⟩
  · rw [if_neg h1] at h
    by_cases h2 : ciStarts subconLbl v
    · rw [if_pos h2] at h
      exact Or.inr ⟨by simpa using h1, h2, (Option.some.inj h).symm⟩
    · rw [if_neg h2] at h
      simp at h

theorem labelRest_none (v : List Char) (h : labelRest v = none) :
    ciStarts subonLbl v = false ∧ ciStarts subconLbl v = false := by
  unfold labelRest at h
  by_cases h1 : ciStarts subonLbl v
  · rw [if_pos h1] at h
    simp at h
  · rw [if_neg h1] at h
    by_cases h2 : ciStarts subconLbl v
    · rw [if_pos h2] at h
      simp at h
    · exact ⟨by simpa using h1, by simpa using h2⟩

/-- `findL` returns the index of the first occurrence: the literal
matches there and at no earlier index. -/
theorem findL_some : ∀ (u : List Char) (k : Nat), findL u = some k →
    ciStarts siteLbl (u.drop k) = true ∧
      ∀ j, j < k → ciStarts siteLbl (u.drop j) = false
  | [], k, h => by simp [findL] at h
  | c :: cs, k, h => by
    rw [findL_cons] at h
    by_cases hc : ciStarts siteLbl (c :: cs)
    · rw [if_pos hc] at h
      have hk : k = 0 := (Option.some.inj h).symm
      subst hk
      exact ⟨by simpa using hc, fun j hj => absurd hj (Nat.not_lt_zero j)⟩
    · rw [if_neg hc] at h
      obtain ⟨j0, hj0, hk⟩ : ∃ j0, findL cs = some j0 ∧ k = j0 + 1 := by
        cases hfc : findL cs with
        | none => rw [hfc] at h; simp at h
        | some j0 =>
          rw [hfc] at h
          simp at h
          exact ⟨j0, rfl, h.symm⟩
      subst hk
      have ih := findL_some cs j0 hj0
      refine ⟨by rw [List.drop_succ_cons]; exact ih.1, ?_⟩
      intro j hj
      match j with
      | 0 => simpa using hc
      | j' + 1 =>
        rw [List.drop_succ_cons]
        exact ih.2 j' (by omega)

/-- If `findL` fails, the literal occurs nowhere. -/
theorem findL_none : ∀ (u : List Char), findL u = none →
    ∀ j, ciStarts siteLbl (u.drop j) = false
  | [], _, j => by rw [List.drop_nil]; decide
  | c :: cs, h, j => by
    rw [findL_cons] at h
    by_cases hc : ciStarts siteLbl (c :: cs)
    · rw [if_pos hc] at h
      simp at h
    · rw [if_neg hc] at h
      have hfc : findL cs = none := by
        cases hfc : findL cs with
        | none => rfl
        | some j0 => rw [hfc] at h; simp at h
      match j with
      | 0 => simpa using hc
      | j' + 1 =>
        rw [List.drop_succ_cons]
        exact findL_none cs hfc j'

theorem LabelAt_ge (t : List Char) (s e : Nat) (h : LabelAt t s e) :
    s + 6 ≤ e := by
  rcases h with ⟨_, h2⟩ | ⟨_, h2⟩ <;> omega

theorem SiteAt_succ (c : Char) (t : List Char) (p : Nat) :
    SiteAt (c :: t) (p + 1) ↔ SiteAt t p := by
  unfold SiteAt
  rw [List.drop_succ_cons]

theorem LabelAt_succ (c : Char) (t : List Char) (s e : Nat) :
    LabelAt (c :: t) (s + 1) e ↔ ∃ e', LabelAt t s e' ∧ e = e' + 1 := by
  unfold LabelAt
  rw [List.drop_succ_cons]
  constructor
  · rintro (⟨h1, h2⟩ | ⟨h1, h2⟩)
    · exact ⟨s + 6, Or.inl ⟨h1, rfl⟩, by omega⟩
    · exact ⟨s + 7, Or.inr ⟨h1, rfl⟩, by omega⟩
  · rintro ⟨e', (⟨h1, h2⟩ | ⟨h1, h2⟩), h3⟩
    · exact Or.inl ⟨h1, by omega⟩
    · exact Or.inr ⟨h1, by omega⟩

theorem MatchAt_succ (c : Char) (t : List Char) (s : Nat) :
    SubconMatchAt (c :: t) (s + 1) ↔ SubconMatchAt t s := by
  unfold SubconMatchAt
  constructor
  · rintro ⟨e, p, hl, hep, hs⟩
    obtain ⟨e', hl', rfl⟩ := (LabelAt_succ c t s e).mp hl
    obtain ⟨p', rfl⟩ : ∃ p', p = p' + 1 := ⟨p - 1, by omega⟩
    exact ⟨e', p', hl', by omega, (SiteAt_succ c t p').mp hs⟩
  · rintro ⟨e, p, hl, hep, hs⟩
    exact ⟨e + 1, p + 1, (LabelAt_succ c t s (e + 1)).mpr ⟨e, hl, rfl⟩,
      by omega, (SiteAt_succ c t p).mpr hs⟩

/-- A successful label-plus-terminator match at the head of the text
yields the leftmost match with the nearest terminator. -/
theorem goSubcon_found (t u : List Char) (n k : Nat) (hu : u = t.drop n)
    (hlab : LabelAt t 0 n) (hfl : findL u = some k) :
    ∃ s e p, LabelAt t s e ∧ e ≤ p ∧ SiteAt t p
      ∧ (∀ s', s' < s → ¬ SubconMatchAt t s')
      ∧ (∀ p', e ≤ p' → SiteAt t p' → p ≤ p')
      ∧ u.take k = (t.drop e).take (p - e) := by
  have hfs := findL_some u k hfl
  refine ⟨0, n, n + k, hlab, by omega, ?_, ?_, ?_, ?_⟩
  · show ciStarts siteLbl (t.drop (n + k)) = true
    have hd : t.drop (n + k) = u.drop k := by
      rw [hu, List.drop_drop]
    rw [hd]
    exact hfs.1
  · intro s' hs'
    exact absurd hs' (Nat.not_lt_zero s')
  · intro p' hp' hsp'
    by_contra hlt
    push_neg at hlt
    have hd : t.drop p' = u.drop (p' - n) := by
      rw [hu, List.drop_drop]
      congr 1
      omega
    have hfalse := hfs.2 (p' - n) (by omega)
    unfold SiteAt at hsp'
    rw [hd, hfalse] at hsp'
    simp at hsp'
  · rw [hu]
    congr 1
    omega

/-- Advancing the scanner one character preserves its contract when
position 0 does not match. -/
theorem goSpec_shift (c : Char) (cs : List Char) (ih : GoSpec cs)
    (h0 : ¬ SubconMatchAt (c :: cs) 0)
    (hstep : goSubcon (c :: cs) = goSubcon cs) : GoSpec (c :: cs) := by
  constructor
  · intro hnone s
    rw [hstep] at hnone
    match s with
    | 0 => exact h0
    | s' + 1 =>
      intro hm
      exact ih.1 hnone s' ((MatchAt_succ c cs s').mp hm)
  · intro r hr
    rw [hstep] at hr
    obtain ⟨s, e, p, hl, hep, hsp, hleft, hmin, hrr⟩ := ih.2 r hr
    refine ⟨s + 1, e + 1, p + 1, (LabelAt_succ c cs s (e + 1)).mpr ⟨e, hl, rfl⟩,
      by omega, (SiteAt_succ c cs p).mpr hsp, ?_, ?_, ?_⟩
    · intro s' hs'
      match s' with
      | 0 => exact h0
      | s'' + 1 =>
        intro hm
        exact hleft s'' (by omega) ((MatchAt_succ c cs s'').mp hm)
    · intro p' hp' hsp'
      match p' with
      | 0 =>
        exfalso
        have := LabelAt_ge cs s e hl
        omega
      | p'' + 1 =>
        have := hmin p'' (by omega) ((SiteAt_succ c cs p'').mp hsp')
        omega
    · rw [List.drop_succ_cons, hrr]
      congr 1
      omega

/-- The scanner satisfies its contract on every page text. -/
theorem goSubcon_correct : ∀ (t : List Char), GoSpec t
  | [] => by
    constructor
    · intro _ s
      rintro ⟨e, p, hl, _, _⟩
      rcases hl with ⟨h1, _⟩ | ⟨h1, _⟩
      · rw [List.drop_nil] at h1
        exact absurd h1 (by decide)
      · rw [List.drop_nil] at h1
        exact absurd h1 (by decide)
    · intro r h
      simp [goSubcon] at h
  | c :: cs => by
    have ih := goSubcon_correct cs
    match hlr : labelRest (c :: cs) with
    | some u =>
      match hfl : findL u with
      | some k =>
        have hstep : goSubcon (c :: cs) = some (u.take k) := by
          simp only [goSubcon_cons, hlr, hfl]
        constructor
        · intro hnone
          rw [hstep] at hnone
          simp at hnone
        · intro r hr
          rw [hstep] at hr
          have hru : r = u.take k := (Option.some.inj hr).symm
          subst hru
          rcases labelRest_some _ _ hlr with ⟨hon, hu⟩ | ⟨_, hcon, hu⟩
          · exact goSubcon_found (c :: cs) u 6 k hu
              (Or.inl ⟨by simpa using hon, by omega⟩) hfl
          · exact goSubcon_found (c :: cs) u 7 k hu
              (Or.inr ⟨by simpa using hcon, by omega⟩) hfl
      | none =>
        have hstep : goSubcon (c :: cs) = goSubcon cs := by
          simp only [goSubcon_cons, hlr, hfl]
        have h0 : ¬ SubconMatchAt (c :: cs) 0 := by
          rintro ⟨e, p, hl, hep, hsp⟩
          have he6 : 6 ≤ e := by
            have := LabelAt_ge (c :: cs) 0 e hl
            omega
          have hfn := findL_none u hfl
          rcases labelRest_some _ _ hlr with ⟨_, hu⟩ | ⟨hnon, _, hu⟩
          · have hd : (c :: cs).drop p = u.drop (p - 6) := by
              rw [hu, List.drop_drop]
              congr 1
              omega
            unfold SiteAt at hsp
            rw [hd, hfn (p - 6)] at hsp
            simp at hsp
          · rcases hl with ⟨h1, h2⟩ | ⟨h1, h2⟩
            · simp only [List.drop_zero] at h1
              rw [hnon] at h1
              simp at h1
            · have hd : (c :: cs).drop p = u.drop (p - 7) := by
                rw [hu, List.drop_drop]
                congr 1
                omega
              unfold SiteAt at hsp
              rw [hd, hfn (p - 7)] at hsp
              simp at hsp
        exact goSpec_shift c cs ih h0 hstep
    | none =>
      have hstep : goSubcon (c :: cs) = goSubcon cs := by
        simp only [goSubcon_cons, hlr]
      have h0 : ¬ SubconMatchAt (c :: cs) 0 := by
        rintro ⟨e, p, hl, _, _⟩
        have hn := labelRest_none _ hlr
        rcases hl with ⟨h1, _⟩ | ⟨h1, _⟩
        · simp only [List.drop_zero] at h1
          rw [hn.1] at h1
          simp at h1
        · simp only [List.drop_zero] at h1
          rw [hn.2] at h1
          simp at h1
      exact goSpec_shift c cs ih h0 hstep

/-- C5: the subcon value comes from the leftmost position where a
`Subon`/`Subcon` label (case-insensitively) followed by a colon admits
a match, capturing the shortest run of characters (line breaks
included) up to the following `Site Receiver:` literal, trimmed of
surrounding whitespace, with internal line breaks replaced by spaces;
when no position matches, the value is the sentinel `"Unknown"`. -/
theorem subcon_extraction_rule (t : List Char) :
    ((¬ ∃ s, SubconMatchAt t s) → extractSubcon t = unknownStr)
    ∧ ((∃ s, SubconMatchAt t s) →
        ∃ s e p, LabelAt t s e ∧ e ≤ p ∧ SiteAt t p
          ∧ (∀ s', SubconMatchAt t s' → s ≤ s')
          ∧ (∀ p', e ≤ p' → SiteAt t p' → p ≤ p')
          ∧ extractSubcon t =
              replaceNL (pyStrip ((t.drop e).take (p - e)))) := by
  have hg := goSubcon_correct t
  constructor
  · intro hno
    match hgo : goSubcon t with
    | none =>
      unfold extractSubcon
      rw [hgo]
    | some r =>
      obtain ⟨s, e, p, hl, hep, hsp, _, _, _⟩ := hg.2 r hgo
      exact absurd ⟨s, e, p, hl, hep, hsp⟩ hno
  · rintro ⟨s0, hs0⟩
    match hgo : goSubcon t with
    | none => exact absurd hs0 (hg.1 hgo s0)
    | some r =>
      obtain ⟨s, e, p, hl, hep, hsp, hleft, hmin, hrr⟩ := hg.2 r hgo
      refine ⟨s, e, p, hl, hep, hsp, ?_, hmin, ?_⟩
      · intro s' hm'
        by_contra hlt
        push_neg at hlt
        exact hleft s' hlt hm'
      · unfold extractSubcon
        rw [hgo, hrr]

/-- C5 witness: `"Subcon: A Site Receiver:"` matches with the label at
offset 0 and the terminating literal at offset 10. -/
theorem subcon_extraction_rule_witness :
    ∃ s e p, LabelAt ("Subcon: A Site Receiver:".toList) s e ∧ e ≤ p
      ∧ SiteAt ("Subcon: A Site Receiver:".toList) p
      ∧ (∀ s', SubconMatchAt ("Subcon: A Site Receiver:".toList) s' → s ≤ s')
      ∧ (∀ p', e ≤ p' → SiteAt ("Subcon: A Site Receiver:".toList) p' → p ≤ p')
      ∧ extractSubcon ("Subcon: A Site Receiver:".toList) =
          replaceNL (pyStrip
            ((("Subcon: A Site Receiver:".toList).drop e).take (p - e))) :=
  (subcon_extraction_rule _).2
    ⟨0, 7, 10, Or.inr ⟨by decide, by decide⟩, by decide, by decide⟩

/-! ### Receiver extraction claim (C10) -/

theorem scanGroup_def (u : List Char) :
    scanGroup u =
      if termAt u then some 0
      else
        match u with
        | [] => none
        | c :: cs => if c == '\n' then none else (scanGroup cs).map (· + 1) := by
  rw [scanGroup.eq_def]

theorem tryWs_zero (u : List Char) :
    tryWs u 0 =
      match scanGroup u with
      | some k => some (u.take k)
      | none => none := rfl

theorem tryWs_succ (u : List Char) (w : Nat) :
    tryWs u (w + 1) =
      match scanGroup (u.drop (w + 1)) with
      | some k => some ((u.drop (w + 1)).take k)
      | none => tryWs u w := rfl

theorem goReceiver_cons (c : Char) (cs : List Char) :
    goReceiver (c :: cs) =
      if ciStarts siteLbl (c :: cs) then
        match matchRecv ((c :: cs).drop 14) with
        | some g => some g
        | none => goReceiver cs
      else goReceiver cs := rfl

/-- The lazy group of the receiver pattern cannot cross a line break:
`.` without DOTALL excludes `'\n'`. -/
theorem scanGroup_no_nl : ∀ (u : List Char) (k : Nat),
    scanGroup u = some k → '\n' ∉ u.take k
  | [], k, h => by
    rw [scanGroup_def] at h
    by_cases ht : termAt []
    · rw [if_pos ht] at h
      have hk : k = 0 := (Option.some.inj h).symm
      subst hk
      simp
    · rw [if_neg ht] at h
      simp at h
  | c :: cs, k, h => by
    rw [scanGroup_def] at h
    by_cases ht : termAt (c :: cs)
    · rw [if_pos ht] at h
      have hk : k = 0 := (Option.some.inj h).symm
      subst hk
      simp
    · rw [if_neg ht] at h
      have h2 : (if (c == '\n') = true then none
          else (scanGroup cs).map (· + 1)) = some k := h
      by_cases hnl : c == '\n'
      · rw [if_pos hnl] at h2
        simp at h2
      · rw [if_neg hnl] at h2
        obtain ⟨k', hk', rfl⟩ : ∃ k', scanGroup cs = some k' ∧ k = k' + 1 := by
          cases hsc : scanGroup cs with
          | none => rw [hsc] at h2; simp at h2
          | some k' =>
            rw [hsc] at h2
            simp at h2
            exact ⟨k', rfl, h2.symm⟩
        intro hmem
        rw [List.take_succ_cons] at hmem
        rcases List.mem_cons.mp hmem with h1 | h1
        · exact absurd h1.symm (by simpa using hnl)
        · exact scanGroup_no_nl cs k' hk' h1

/-- No choice of the backtracking whitespace prefix can put a line
break inside the captured group. -/
theorem tryWs_no_nl : ∀ (u : List Char) (w : Nat) (g : List Char),
    tryWs u w = some g → '\n' ∉ g
  | u, 0, g, h => by
    rw [tryWs_zero] at h
    cases hsc : scanGroup u with
    | none => rw [hsc] at h; simp at h
    | some k =>
      rw [hsc] at h
      have hg : g = u.take k := (Option.some.inj h).symm
      subst hg
      exact scanGroup_no_nl u k hsc
  | u, w + 1, g, h => by
    rw [tryWs_succ] at h
    cases hsc : scanGroup (u.drop (w + 1)) with
    | none =>
      rw [hsc] at h
      exact tryWs_no_nl u w g h
    | some k =>
      rw [hsc] at h
      have hg : g = (u.drop (w + 1)).take k := (Option.some.inj h).symm
      subst hg
      exact scanGroup_no_nl (u.drop (w + 1)) k hsc

/-- Any group the receiver scanner captures contains no line break. -/
theorem goReceiver_no_nl : ∀ (t : List Char) (g : List Char),
    goReceiver t = some g → '\n' ∉ g
  | [], g, h => by simp [goReceiver] at h
  | c :: cs, g, h => by
    rw [goReceiver_cons] at h
    by_cases hc : ciStarts siteLbl (c :: cs)
    · rw [if_pos hc] at h
      cases hm : matchRecv ((c :: cs).drop 14) with
      | none =>
        rw [hm] at h
        exact goReceiver_no_nl cs g h
      | some g' =>
        rw [hm] at h
        have hg : g = g' := (Option.some.inj h).symm
        subst hg
        unfold matchRecv at hm
        exact tryWs_no_nl _ _ _ hm
    · rw [if_neg hc] at h
      exact goReceiver_no_nl cs g h

/-- Stripping only removes characters. -/
theorem pyStrip_mem {a : Char} {s : List Char} (h : a ∈ pyStrip s) : a ∈ s := by
  unfold pyStrip at h
  rw [List.mem_reverse] at h
  have h2 := (List.dropWhile_sublist pySpace).mem h
  rw [List.mem_reverse] at h2
  exact (List.dropWhile_sublist pySpace).mem h2

/-- The extracted receiver never contains a line break (whatever branch
produced it). -/
theorem extractReceiver_no_nl (t : List Char) : '\n' ∉ extractReceiver t := by
  unfold extractReceiver
  cases hgo : goReceiver t with
  | none => decide
  | some g =>
    show '\n' ∉ pyStrip g
    intro hmem
    exact goReceiver_no_nl t g hgo (pyStrip_mem hmem)

/-- C10 (amended): a receiver value other than the sentinel contains no
line break — the captured run cannot cross `'\n'`; only the leading
whitespace after the label may. -/
theorem receiver_single_line (t : List Char)
    (h : extractReceiver t ≠ unknownStr) : '\n' ∉ extractReceiver t :=
  extractReceiver_no_nl t

/-- C10 (amended) witness. -/
theorem receiver_single_line_witness :
    '\n' ∉ extractReceiver ("Site Receiver: John 123456789".toList) :=
  receiver_single_line _ (by decide)

/-- C10 counterexample: the greedy `\s*` after the label crosses the
line break, so a terminator that appears only on a later line can still
match — `"Site Receiver:\nJohn/"` yields `"John"`, not `"Unknown"`. -/
theorem receiver_newline_cex :
    extractReceiver ("Site Receiver:\nJohn/".toList) = "John".toList
    ∧ "John".toList ≠ unknownStr :=
  ⟨by decide, by decide⟩
